import Mathlib

/-!
# Verification of the stratus block-import and persistence pipeline

A shallow embedding, in Lean, of the parts of the stratus node that the
specification's claims are about:

* the Keccak-256 hash and the locally-mined `BlockHeader` construction
  (`src/eth/primitives/block_number.rs`, `src/eth/primitives/block_header.rs`);
* the execution data model (`ExecutionValueChange`, `ExecutionAccountChanges`,
  `TransactionMined`, `Block`);
* the embedded permanent storage backend (`RocksPermanentStorage`,
  `src/eth/storage/rocks/rocks_permanent.rs`) with its optimistic conflict
  check, block save, block-number counter and reset;
* the SQL permanent storage backend's save-time conflict decision
  (`PostgresPermanentStorage`, `src/eth/storage/postgres_permanent/postgres_permanent.rs`);
* the transaction dependency DAG (`TransactionDag`,
  `src/eth/relayer/transaction_dag.rs`).

Machine integers are modelled as `Nat` (the source's `u64`/`U256` values never
overflow in the modelled operations); fallible operations return `Except`;
the key-value column families of the embedded backend are association lists.
-/

set_option maxRecDepth 10000

namespace Stratus

/-! ## Bytes -/

/-- A byte sequence, each element a value in `[0, 255]`. -/
abbrev Bytes := List Nat

/-! ## Keccak-256

The source hashes block numbers with `ethers_core::utils::keccak256` (legacy
Keccak-256: `0x01` domain padding, rate 1088 bits).  The permutation state is a
list of 25 lanes of 64 bits, lane `(x, y)` stored at position `x + 5 * y`. -/

namespace Keccak

def u64Mask : Nat := 2 ^ 64 - 1

/-- Rotate a 64-bit lane left by `n` bits (`0 ≤ n < 64`). -/
def rotl (x n : Nat) : Nat := ((x <<< n) % 2 ^ 64) ||| (x >>> (64 - n))

/-- The rho-step offset walk: starting from lane `(1, 0)`, step `t` assigns
offset `(t+1)(t+2)/2 mod 64` and moves to `(y, 2x+3y mod 5)`. -/
def rhoGen : Nat → (Nat × Nat) → Nat → List (Nat × Nat)
  | 0, _, _ => []
  | n + 1, xy, t =>
    (xy.1 + 5 * xy.2, (t + 1) * (t + 2) / 2 % 64) ::
      rhoGen n (xy.2, (2 * xy.1 + 3 * xy.2) % 5) (t + 1)

/-- Rho-step rotation offsets, position `x + 5 * y` (lane `(0, 0)` keeps 0). -/
def rotOffsets : List Nat :=
  (List.range 25).map fun i =>
    match (rhoGen 24 (1, 0) 0).find? (fun p => p.1 == i) with
    | some p => p.2
    | none => 0

def roundConstants : List Nat :=
  [0x0000000000000001, 0x0000000000008082, 0x800000000000808a, 0x8000000080008000,
   0x000000000000808b, 0x0000000080000001, 0x8000000080008081, 0x8000000000008009,
   0x000000000000008a, 0x0000000000000088, 0x0000000080008009, 0x000000008000000a,
   0x000000008000808b, 0x800000000000008b, 0x8000000000008089, 0x8000000000008003,
   0x8000000000008002, 0x8000000000000080, 0x000000000000800a, 0x800000008000000a,
   0x8000000080008081, 0x8000000000008080, 0x0000000080000001, 0x8000000080008008]

/-- Lane `(x, y)` of the state (coordinates taken mod 5). -/
def lane (A : List Nat) (x y : Nat) : Nat := A.getD (x % 5 + 5 * (y % 5)) 0

def theta (A : List Nat) : List Nat :=
  let C := (List.range 5).map fun x =>
    lane A x 0 ^^^ lane A x 1 ^^^ lane A x 2 ^^^ lane A x 3 ^^^ lane A x 4
  let D := (List.range 5).map fun x => C.getD ((x + 4) % 5) 0 ^^^ rotl (C.getD ((x + 1) % 5) 0) 1
  (List.range 25).map fun i => A.getD i 0 ^^^ D.getD (i % 5) 0

def rhoPi (A : List Nat) : List Nat :=
  (List.range 25).map fun i =>
    let X := i % 5
    let Y := i / 5
    let x := (X + 3 * Y) % 5
    rotl (lane A x X) (rotOffsets.getD (x + 5 * X) 0)

def chi (B : List Nat) : List Nat :=
  (List.range 25).map fun i =>
    let x := i % 5
    let y := i / 5
    lane B x y ^^^ ((lane B (x + 1) y ^^^ u64Mask) &&& lane B (x + 2) y)

def iota (rc : Nat) (A : List Nat) : List Nat :=
  (List.range 25).map fun i => if i = 0 then A.getD 0 0 ^^^ rc else A.getD i 0

def keccakF (A : List Nat) : List Nat :=
  roundConstants.foldl (fun A rc => iota rc (chi (rhoPi (theta A)))) A

/-- Keccak `pad10*1` padding with the `0x01` domain byte, to a multiple of 136 bytes. -/
def pad (msg : Bytes) : Bytes :=
  let r := 136 - msg.length % 136
  if r = 1 then msg ++ [0x81]
  else msg ++ 0x01 :: (List.replicate (r - 2) 0 ++ [0x80])

/-- Little-endian 64-bit lane `i` of a 136-byte block. -/
def laneAt (block : Bytes) (i : Nat) : Nat :=
  (List.range 8).foldr (fun j acc => block.getD (8 * i + j) 0 + 256 * acc) 0

def blockLanes (block : Bytes) : List Nat := (List.range 17).map (laneAt block)

def absorbLanes (A lanes : List Nat) : List Nat :=
  (List.range 25).map fun i => A.getD i 0 ^^^ lanes.getD i 0

/-- Absorb the padded message 136 bytes at a time; `fuel` bounds the recursion
(structurally, so that the kernel can evaluate it). -/
def absorb : Nat → List Nat → Bytes → List Nat
  | 0, A, _ => A
  | fuel + 1, A, p =>
    if p.isEmpty then A
    else absorb fuel (keccakF (absorbLanes A (blockLanes (p.take 136)))) (p.drop 136)

/-- First 32 bytes of the final state, lanes serialized little-endian. -/
def squeeze (A : List Nat) : Bytes :=
  (List.range 32).map fun i => A.getD (i / 8) 0 >>> (8 * (i % 8)) % 256

def keccak256 (msg : Bytes) : Bytes :=
  squeeze (absorb (msg.length + 136) (List.replicate 25 0) (pad msg))

end Keccak

/-! ## Primitive value types

Sources: `src/eth/primitives/*.rs`.  Fixed-width numbers (u64, U256) are
modelled as `Nat`; 20-byte addresses and 256-bit slot indexes/values as `Nat`;
32-byte hashes as byte lists. -/

/-- 32-byte hash (source: `Hash`). -/
abbrev Hash := List Nat

def Hash.zero : Hash := List.replicate 32 0

abbrev Address := Nat
abbrev SlotIndex := Nat
abbrev BlockNumber := Nat
abbrev UnixTime := Nat
abbrev Gas := Nat

/-- `keccak256` as used by the source (via ethers-core). -/
def keccak256 : Bytes → Hash := Keccak.keccak256

/-- `<[u8; 8]>::from(block_number)`: the 8-byte big-endian encoding of a u64
(source: `block_number.rs`, `impl From<BlockNumber> for [u8; 8]`). -/
def BlockNumber.beBytes (n : BlockNumber) : Bytes :=
  (List.range 8).map fun i => n / 2 ^ (8 * (7 - i)) % 256

/-- `BlockNumber::hash`: keccak-256 of the 8-byte big-endian representation
(source: `block_number.rs` lines 45-48). -/
def BlockNumber.hashOf (n : BlockNumber) : Hash := keccak256 (BlockNumber.beBytes n)

/-- `BlockNumber::prev`: `None` at zero, else the predecessor
(source: `block_number.rs` lines 50-57). -/
def BlockNumber.prev (n : BlockNumber) : Option BlockNumber :=
  if n = 0 then none else some (n - 1)

/-- `BlockNumber::next_block_number` (source: `block_number.rs` lines 59-62). -/
def BlockNumber.next_block_number (n : BlockNumber) : BlockNumber := n + 1

/-! ## Block header

Source: `src/eth/primitives/block_header.rs`. -/

/-- `HASH_EMPTY_UNCLES` (source: `block_header.rs` line 29). -/
def HASH_EMPTY_UNCLES : Hash :=
  [0x1d, 0xcc, 0x4d, 0xe8, 0xde, 0xc7, 0x5d, 0x7a, 0xab, 0x85, 0xb5, 0x67, 0xb6, 0xcc, 0xd4, 0x1a,
   0xd3, 0x12, 0x45, 0x1b, 0x94, 0x8a, 0x74, 0x13, 0xf0, 0xa1, 0x42, 0xfd, 0x40, 0xd4, 0x93, 0x47]

/-- `HASH_EMPTY_TRIE` (source: `block_header.rs` line 32). -/
def HASH_EMPTY_TRIE : Hash :=
  [0x56, 0xe8, 0x1f, 0x17, 0x1b, 0xcc, 0x55, 0xa6, 0xff, 0x83, 0x45, 0xe6, 0x92, 0xc0, 0xf8, 0x6e,
   0x5b, 0x48, 0xe0, 0x1b, 0x99, 0x6c, 0xad, 0xc0, 0x01, 0x62, 0x2f, 0xb5, 0xe3, 0x63, 0xb4, 0x21]

/-- `BlockHeader` (source: `block_header.rs` lines 34-54).  `bloom` is the
256-byte logs bloom, `nonce` the 8-byte miner nonce. -/
structure BlockHeader where
  number : BlockNumber
  hash : Hash
  transactions_root : Hash
  gas_used : Gas
  gas_limit : Gas
  bloom : Bytes
  timestamp : UnixTime
  parent_hash : Hash
  author : Address
  extra_data : Bytes
  miner : Address
  difficulty : Nat
  receipts_root : Hash
  uncle_hash : Hash
  size : Nat
  state_root : Hash
  total_difficulty : Nat
  nonce : Bytes
deriving DecidableEq

/-- `BlockHeader::new` (source: `block_header.rs` lines 56-79). -/
def BlockHeader.new (number : BlockNumber) (timestamp : UnixTime) : BlockHeader where
  number := number
  hash := BlockNumber.hashOf number
  transactions_root := HASH_EMPTY_TRIE
  gas_used := 0
  gas_limit := 0
  bloom := List.replicate 256 0
  timestamp := timestamp
  parent_hash := ((BlockNumber.prev number).map BlockNumber.hashOf).getD Hash.zero
  author := 0
  extra_data := []
  miner := 0
  difficulty := 0
  receipts_root := HASH_EMPTY_TRIE
  uncle_hash := HASH_EMPTY_UNCLES
  size := 0
  state_root := HASH_EMPTY_TRIE
  total_difficulty := 0
  nonce := List.replicate 8 0

/-! ## Execution data model

The file defining `ExecutionValueChange`, `ExecutionAccountChanges`,
`EvmExecution` and `TransactionMined` is not among the sources; the fields and
operations used by the sources are modelled from the spec (§3). -/

/-- Modelled from the spec: `ValueChange<T> = {original: T?, modified: T?}`;
`original == None` means the account/slot did not exist before the transaction
(the source file defining `ExecutionValueChange` is missing from the sources). -/
structure ExecutionValueChange (T : Type) where
  original : Option T := none
  modified : Option T := none
deriving DecidableEq

/-- Modelled from the spec: a change is modified iff `modified.is_some() && modified != original`. -/
def ExecutionValueChange.is_modified [DecidableEq T] (vc : ExecutionValueChange T) : Bool :=
  vc.modified.isSome && vc.modified != vc.original

/-- Modelled from the spec: read access to the observed pre-image. -/
def ExecutionValueChange.take_original_ref (vc : ExecutionValueChange T) : Option T := vc.original

/-- Modelled from the spec: the written post-image, if any. -/
def ExecutionValueChange.take (vc : ExecutionValueChange T) : Option T := vc.modified

/-- Modelled from the spec: both the pre- and the post-image. -/
def ExecutionValueChange.take_both (vc : ExecutionValueChange T) : Option T × Option T :=
  (vc.original, vc.modified)

/-- A contract storage slot: 256-bit index and value (spec §3). -/
structure Slot where
  index : SlotIndex
  value : Nat
deriving DecidableEq

/-- Modelled from the spec: per-account value changes of one or more executions
(nonce, balance, bytecode, and per-index slot changes). -/
structure ExecutionAccountChanges where
  address : Address
  nonce : ExecutionValueChange Nat := {}
  balance : ExecutionValueChange Nat := {}
  bytecode : ExecutionValueChange (Option Bytes) := {}
  slots : List (SlotIndex × ExecutionValueChange Slot) := []
deriving DecidableEq

/-- `TransactionInput` modelled with the single field the storage engine reads. -/
structure TransactionInput where
  hash : Nat
deriving DecidableEq

/-- A mined log; only `log_index` is read by the storage engine. -/
structure LogMined where
  log_index : Nat
deriving DecidableEq

/-- `EvmExecution` modelled with its `changes` map (address → account changes). -/
structure EvmExecution where
  changes : List (Address × ExecutionAccountChanges)
deriving DecidableEq

/-- `TransactionMined` (spec §3). -/
structure TransactionMined where
  input : TransactionInput
  execution : EvmExecution
  logs : List LogMined
  transaction_index : Nat
  block_number : BlockNumber
  block_hash : Hash
deriving DecidableEq

/-- `Block` (spec §3). -/
structure Block where
  header : BlockHeader
  transactions : List TransactionMined
deriving DecidableEq

/-- Modelled from the spec: merging two `ValueChange`s of the same account
across consecutive transactions keeps the first observed original and the last
written modification. -/
def mergeValueChange (old new : ExecutionValueChange T) : ExecutionValueChange T where
  original := old.original
  modified := match new.modified with
    | some v => some v
    | none => old.modified

def mergeSlotChange (slots : List (SlotIndex × ExecutionValueChange Slot))
    (idx : SlotIndex) (vc : ExecutionValueChange Slot) :
    List (SlotIndex × ExecutionValueChange Slot) :=
  match slots with
  | [] => [(idx, vc)]
  | (i, old) :: rest =>
    if i = idx then (i, mergeValueChange old vc) :: rest
    else (i, old) :: mergeSlotChange rest idx vc

/-- Modelled from the spec: merge the later change `new` into `old` fieldwise. -/
def mergeAccountChanges (old new : ExecutionAccountChanges) : ExecutionAccountChanges where
  address := old.address
  nonce := mergeValueChange old.nonce new.nonce
  balance := mergeValueChange old.balance new.balance
  bytecode := mergeValueChange old.bytecode new.bytecode
  slots := new.slots.foldl (fun acc (idx, vc) => mergeSlotChange acc idx vc) old.slots

def upsertChange (acc : List ExecutionAccountChanges) (address : Address)
    (change : ExecutionAccountChanges) : List ExecutionAccountChanges :=
  match acc with
  | [] => [change]
  | c :: rest =>
    if c.address = address then mergeAccountChanges c change :: rest
    else c :: upsertChange rest address change

/-- Modelled from the spec: `Block::compact_account_changes` (the defining file
is missing from the sources) folds every transaction's `execution.changes`, in
transaction order, into one `ExecutionAccountChanges` per touched address. -/
def Block.compact_account_changes (b : Block) : List ExecutionAccountChanges :=
  b.transactions.foldl
    (fun acc tx => tx.execution.changes.foldl (fun acc p => upsertChange acc p.1 p.2) acc) []

/-! ## Embedded permanent storage (`RocksPermanentStorage`)

Source: `src/eth/storage/rocks/rocks_permanent.rs`.  The column families of
`RocksStorageState` (defined in the missing `rocks_state.rs`) are modelled as
association lists, newest entry first. -/

/-- Association-list lookup (first matching key wins, like an overwriting map). -/
def lookupKV [DecidableEq κ] (k : κ) : List (κ × β) → Option β
  | [] => none
  | (k', v) :: rest => if k' = k then some v else lookupKV k rest

/-- Association-list insert/overwrite. -/
def insertKV (k : κ) (v : β) (l : List (κ × β)) : List (κ × β) := (k, v) :: l

/-- `AccountInfo` (source: `rocks_permanent.rs` uses its `balance`, `nonce`,
`bytecode`, `code_hash` fields). -/
structure AccountInfo where
  balance : Nat
  nonce : Nat
  bytecode : Option Bytes := none
  code_hash : Hash := []
deriving DecidableEq

abbrev SlotKey := Address × SlotIndex

/-- Modelled from the spec: the logical namespaces of `RocksStorageState`
(`rocks_state.rs` is missing from the sources; the spec's §6 "persisted state
layout" lists them): latest accounts/slots plus append-only histories, block
and transaction/log indexes. -/
structure RocksStorageState where
  accounts : List (Address × AccountInfo) := []
  accounts_history : List ((Address × BlockNumber) × AccountInfo) := []
  account_slots : List (SlotKey × Nat) := []
  account_slots_history : List ((SlotKey × BlockNumber) × Nat) := []
  transactions : List (Nat × BlockNumber) := []
  logs : List ((Nat × Nat) × BlockNumber) := []
  blocks_by_number : List (BlockNumber × Block) := []
  blocks_by_hash : List (Hash × BlockNumber) := []
deriving DecidableEq

/-- The conflict taxonomy (source: `ExecutionConflict`; spec §7). -/
inductive ExecutionConflict where
  | nonce (address : Address) (expected original : Nat)
  | balance (address : Address) (expected original : Nat)
  | slot (address : Address) (index : SlotIndex) (expected original : Nat)
  | account
  | pgSlot
deriving DecidableEq

/-- `StorageError` (source: `storage::StorageError`); only the `Conflict`
variant is produced by the modelled operations. -/
inductive StorageError where
  | conflict (conflicts : List ExecutionConflict)
deriving DecidableEq

/-- The conflicts one `ExecutionAccountChanges` contributes, exactly as
collected by `RocksPermanentStorage::check_conflicts`
(source: `rocks_permanent.rs` lines 65-99): checks run only when the latest
projection has the account; nonce/balance originals are compared against the
stored latest values, slot originals only for slots present in the latest
slots projection. -/
def conflictsOfChange (state : RocksStorageState) (change : ExecutionAccountChanges) :
    List ExecutionConflict :=
  match lookupKV change.address state.accounts with
  | none => []
  | some account =>
    (match change.nonce.take_original_ref with
      | some original_nonce =>
        if original_nonce ≠ account.nonce then
          [.nonce change.address account.nonce original_nonce]
        else []
      | none => []) ++
    (match change.balance.take_original_ref with
      | some original_balance =>
        if original_balance ≠ account.balance then
          [.balance change.address account.balance original_balance]
        else []
      | none => []) ++
    change.slots.flatMap fun p =>
      match lookupKV (change.address, p.1) state.account_slots with
      | some value =>
        (match p.2.take_original_ref with
          | some original_slot =>
            if original_slot.value ≠ value then
              [.slot change.address p.1 value original_slot.value]
            else []
          | none => [])
      | none => []

/-- `RocksPermanentStorage::check_conflicts` (source: `rocks_permanent.rs`
lines 65-99); the builder returns `Some` exactly when the collected list is
non-empty, modelled by returning the list itself. -/
def check_conflicts (state : RocksStorageState) (account_changes : List ExecutionAccountChanges) :
    List ExecutionConflict :=
  account_changes.flatMap (conflictsOfChange state)

/-- Modelled from the spec: one written slot's update inside
`RocksStorageState::update_state_with_execution_changes` (defined in the
missing `rocks_state.rs`). -/
def applySlot (a : Address) (number : BlockNumber) (st : RocksStorageState)
    (p : SlotIndex × ExecutionValueChange Slot) : RocksStorageState :=
  match p.2.take with
  | some s =>
    { st with
      account_slots := insertKV (a, p.1) s.value st.account_slots
      account_slots_history := insertKV ((a, p.1), number) s.value st.account_slots_history }
  | none => st

/-- Modelled from the spec: one account's update inside
`RocksStorageState::update_state_with_execution_changes` (defined in the
missing `rocks_state.rs`): apply the modified nonce/balance/bytecode to the
latest-accounts projection, append the account history row at the block
number, and likewise for every written slot. -/
def applyChange (st : RocksStorageState) (number : BlockNumber)
    (change : ExecutionAccountChanges) : RocksStorageState :=
  let old := (lookupKV change.address st.accounts).getD { balance := 0, nonce := 0 }
  let info : AccountInfo :=
    { balance := change.balance.take.getD old.balance
      nonce := change.nonce.take.getD old.nonce
      bytecode := change.bytecode.take.getD old.bytecode
      code_hash := old.code_hash }
  change.slots.foldl (applySlot change.address number)
    { st with
      accounts := insertKV change.address info st.accounts
      accounts_history := insertKV (change.address, number) info st.accounts_history }

/-- `RocksPermanentStorage`: the storage state plus the atomic block-number
counter (source: `rocks_permanent.rs` lines 40-44). -/
structure RocksPermanentStorage where
  state : RocksStorageState
  block_number : Nat
deriving DecidableEq

namespace RocksPermanentStorage

/-- `read_mined_block_number` (source: `rocks_permanent.rs` lines 112-114). -/
def read_mined_block_number (s : RocksPermanentStorage) : BlockNumber := s.block_number

/-- `increment_block_number` (source: `rocks_permanent.rs` lines 116-119). -/
def increment_block_number (s : RocksPermanentStorage) :
    BlockNumber × RocksPermanentStorage :=
  (s.block_number + 1, { s with block_number := s.block_number + 1 })

/-- `set_mined_block_number` (source: `rocks_permanent.rs` lines 121-124): an
unconditional store that always returns `Ok`. -/
def set_mined_block_number (s : RocksPermanentStorage) (number : BlockNumber) :
    Except String Unit × RocksPermanentStorage :=
  (.ok (), { s with block_number := number })

/-- Strip every transaction's `execution.changes`, as `save_block` does before
persisting the block body (source: `rocks_permanent.rs` lines 182-185). -/
def stripChanges (block : Block) : Block :=
  { block with
    transactions := block.transactions.map fun t =>
      { t with execution := { t.execution with changes := [] } } }

/-- `RocksPermanentStorage::save_block` (source: `rocks_permanent.rs` lines
153-222): compact the block's account changes, fail with `Conflict` before any
mutation when `check_conflicts` collects anything, otherwise write the
transaction/log indexes, the block bodies (with per-transaction changes
stripped), and the latest/history projections.  The pair returned is
(result, storage after the call). -/
def save_block (s : RocksPermanentStorage) (block : Block) :
    Except StorageError Unit × RocksPermanentStorage :=
  if check_conflicts s.state block.compact_account_changes = [] then
    let account_changes := block.compact_account_changes
    let txs_batch := block.transactions.map fun t => (t.input.hash, t.block_number)
    let logs_batch := block.transactions.flatMap fun t =>
      t.logs.map fun l => ((t.input.hash, l.log_index), t.block_number)
    let number := block.header.number
    let st := { s.state with
      transactions := txs_batch ++ s.state.transactions
      logs := logs_batch ++ s.state.logs
      blocks_by_number := insertKV number (stripChanges block) s.state.blocks_by_number
      blocks_by_hash := insertKV block.header.hash number s.state.blocks_by_hash }
    (.ok (), { s with state := account_changes.foldl (fun st ch => applyChange st number ch) st })
  else (.error (.conflict (check_conflicts s.state block.compact_account_changes)), s)

end RocksPermanentStorage

/-! ## Point-in-time reads, reset, block reads

`RocksStorageState`'s read and reset methods live in the missing
`rocks_state.rs`; they are modelled from the spec (§4.2 "point-in-time reads",
§3 "lifecycles", §4.2 `reset_at`). -/

/-- `StoragePointInTime` (spec §3). -/
inductive StoragePointInTime where
  | Present
  | Past (number : BlockNumber)
deriving DecidableEq

/-- The account-history row for `a` with the largest block number `≤ n`,
together with that block number. -/
def latestAccountAt (hist : List ((Address × BlockNumber) × AccountInfo)) (n : BlockNumber)
    (a : Address) : Option (BlockNumber × AccountInfo) :=
  hist.foldl
    (fun best e =>
      if e.1.1 = a ∧ e.1.2 ≤ n then
        match best with
        | none => some (e.1.2, e.2)
        | some b => if b.1 < e.1.2 then some (e.1.2, e.2) else best
      else best)
    none

/-- The slot-history row for `key` with the largest block number `≤ n`. -/
def latestSlotAt (hist : List ((SlotKey × BlockNumber) × Nat)) (n : BlockNumber)
    (key : SlotKey) : Option (BlockNumber × Nat) :=
  hist.foldl
    (fun best e =>
      if e.1.1 = key ∧ e.1.2 ≤ n then
        match best with
        | none => some (e.1.2, e.2)
        | some b => if b.1 < e.1.2 then some (e.1.2, e.2) else best
      else best)
    none

/-- Modelled from the spec: `RocksStorageState::read_account` (missing
`rocks_state.rs`): `Present` consults the latest projection, `Past(n)` the
historical rows with the largest block number `≤ n`. -/
def RocksStorageState.read_account (state : RocksStorageState) (address : Address)
    (point_in_time : StoragePointInTime) : Option AccountInfo :=
  match point_in_time with
  | .Present => lookupKV address state.accounts
  | .Past n => (latestAccountAt state.accounts_history n address).map (·.2)

/-- Modelled from the spec: `RocksStorageState::read_slot` (missing
`rocks_state.rs`). -/
def RocksStorageState.read_slot (state : RocksStorageState) (address : Address)
    (index : SlotIndex) (point_in_time : StoragePointInTime) : Option Slot :=
  match point_in_time with
  | .Present => (lookupKV (address, index) state.account_slots).map fun v => { index, value := v }
  | .Past n =>
    (latestSlotAt state.account_slots_history n (address, index)).map fun p =>
      { index, value := p.2 }

/-- `BlockSelection` (spec §4.2 `read_block`). -/
inductive BlockSelection where
  | Latest
  | Earliest
  | Hash (h : Hash)
  | Number (n : BlockNumber)

/-- Modelled from the spec: `RocksStorageState::read_block` (missing
`rocks_state.rs`): `Number` and `Earliest`/`Latest` consult `blocks_by_number`
(the latter two at the extremal stored numbers), `Hash` goes through the
`blocks_by_hash` index. -/
def RocksStorageState.read_block (state : RocksStorageState) (selection : BlockSelection) :
    Option Block :=
  match selection with
  | .Number n => lookupKV n state.blocks_by_number
  | .Hash h => (lookupKV h state.blocks_by_hash).bind fun n => lookupKV n state.blocks_by_number
  | .Latest =>
    match state.blocks_by_number.map (·.1) with
    | [] => none
    | n :: rest => lookupKV (rest.foldl Nat.max n) state.blocks_by_number
  | .Earliest =>
    match state.blocks_by_number.map (·.1) with
    | [] => none
    | n :: rest => lookupKV (rest.foldl Nat.min n) state.blocks_by_number

/-- Modelled from the spec: `RocksStorageState::reset_at` (missing
`rocks_state.rs`): truncate every history and index past block `n` and roll
the latest projections back to their value at height `n` (an account or slot
with no remaining history row disappears). -/
def RocksStorageState.reset_at (state : RocksStorageState) (n : BlockNumber) :
    RocksStorageState :=
  let ah := state.accounts_history.filter fun e => e.1.2 ≤ n
  let sh := state.account_slots_history.filter fun e => e.1.2 ≤ n
  { accounts := state.accounts.filterMap fun e => (latestAccountAt ah n e.1).map fun p => (e.1, p.2)
    accounts_history := ah
    account_slots := state.account_slots.filterMap fun e =>
      (latestSlotAt sh n e.1).map fun p => (e.1, p.2)
    account_slots_history := sh
    transactions := state.transactions.filter fun e => e.2 ≤ n
    logs := state.logs.filter fun e => e.2 ≤ n
    blocks_by_number := state.blocks_by_number.filter fun e => e.1 ≤ n
    blocks_by_hash := state.blocks_by_hash.filter fun e => e.2 ≤ n }

namespace RocksPermanentStorage

/-- `RocksPermanentStorage::reset_at` (source: `rocks_permanent.rs` lines
256-268): `fetch_update` lowers the counter to `number` only when
`number ≤ current`, then resets the state. -/
def reset_at (s : RocksPermanentStorage) (number : BlockNumber) : RocksPermanentStorage where
  state := s.state.reset_at number
  block_number := if number ≤ s.block_number then number else s.block_number

/-- `maybe_read_account` (source: `rocks_permanent.rs` lines 130-132). -/
def maybe_read_account (s : RocksPermanentStorage) (address : Address)
    (point_in_time : StoragePointInTime) : Option AccountInfo :=
  s.state.read_account address point_in_time

/-- `maybe_read_slot` (source: `rocks_permanent.rs` lines 134-137). -/
def maybe_read_slot (s : RocksPermanentStorage) (address : Address) (index : SlotIndex)
    (point_in_time : StoragePointInTime) : Option Slot :=
  s.state.read_slot address index point_in_time

/-- `read_block` (source: `rocks_permanent.rs` lines 139-141). -/
def read_block (s : RocksPermanentStorage) (selection : BlockSelection) : Option Block :=
  s.state.read_block selection

end RocksPermanentStorage

/-! ## SQL permanent storage (`PostgresPermanentStorage`): save-time conflict decision

Source: `src/eth/storage/postgres_permanent/postgres_permanent.rs` lines
537-724.  The Rust builds batched rows from the compacted account changes
(originals defaulted with `unwrap_or_default()`), sends one multi-statement
insert, and compares the returned `(modified_accounts, modified_slots)` counts
with the batch cardinalities, rolling back on a difference.  The SQL file
`insert_entire_block.sql` is missing from the sources; its row predicate is
modelled from the spec. -/

/-- One row of `account_batch` (source: `postgres_permanent.rs` lines 574-597):
originals are defaulted to zero when absent, the new values fall back to the
originals. -/
structure AccountRow where
  address : Address
  new_nonce : Nat
  original_nonce : Nat
  new_balance : Nat
  original_balance : Nat
deriving DecidableEq

/-- One row of `slot_batch` (source: `postgres_permanent.rs` lines 604-620):
pushed only when the slot change carries a written value; the original value
is defaulted to zero when absent. -/
structure SlotRow where
  address : Address
  index : SlotIndex
  value : Nat
  original_value : Nat
deriving DecidableEq

def accountRowOf (change : ExecutionAccountChanges) : AccountRow :=
  let originals_nonce := change.nonce.take_both.1.getD 0
  let originals_balance := change.balance.take_both.1.getD 0
  { address := change.address
    new_nonce := change.nonce.take_both.2.getD originals_nonce
    original_nonce := originals_nonce
    new_balance := change.balance.take_both.2.getD originals_balance
    original_balance := originals_balance }

def slotRowsOf (change : ExecutionAccountChanges) : List SlotRow :=
  change.slots.filterMap fun p =>
    match p.2.take_both.2 with
    | none => none
    | some s =>
      some { address := change.address
             index := p.1
             value := s.value
             original_value := ((p.2.take_both.1).map (·.value)).getD 0 }

/-- Modelled from the spec: the account-row predicate of
`insert_entire_block.sql` ("a pure write-time SQL predicate"): a row counts as
modified when it inserts a fresh account or when the stored latest nonce and
balance equal the row's originals. -/
def pgAccountRowModified (state : RocksStorageState) (row : AccountRow) : Bool :=
  match lookupKV row.address state.accounts with
  | none => true
  | some acc => acc.nonce == row.original_nonce && acc.balance == row.original_balance

/-- Modelled from the spec: the slot-row predicate of `insert_entire_block.sql`:
fresh insert, or stored latest slot value equal to the row's original. -/
def pgSlotRowModified (state : RocksStorageState) (row : SlotRow) : Bool :=
  match lookupKV (row.address, row.index) state.account_slots with
  | none => true
  | some v => v == row.original_value

/-- `PostgresPermanentStorage::save_block`'s conflict decision (source:
`postgres_permanent.rs` lines 624-724): the SQL backend accepts the block iff
every batched account row and every batched slot row counts as modified;
otherwise the transaction is rolled back (modelled by returning the error with
no state change) with an `Account` or `PgSlot` conflict. -/
def PostgresPermanentStorage.save_block (state : RocksStorageState) (block : Block) :
    Except StorageError Unit :=
  let account_batch := block.compact_account_changes.map accountRowOf
  let slot_batch := block.compact_account_changes.flatMap slotRowsOf
  if (account_batch.filter (pgAccountRowModified state)).length = account_batch.length then
    if (slot_batch.filter (pgSlotRowModified state)).length = slot_batch.length then .ok ()
    else .error (.conflict [.pgSlot])
  else .error (.conflict [.account])

/-- `PostgresPermanentStorage::set_mined_block_number` (source:
`postgres_permanent.rs` lines 100-103): a no-op that always returns `Ok`.
The SQL backend's visible state is modelled with the same shape as the
embedded one; the call leaves it untouched. -/
def PostgresPermanentStorage.set_mined_block_number (state : RocksStorageState)
    (_number : BlockNumber) : Except String Unit × RocksStorageState :=
  (.ok (), state)

/-! ## Transaction dependency DAG

Source: `src/eth/relayer/transaction_dag.rs`.  Nodes are the block's
transactions; the graph is modelled by the list of live nodes plus the list of
edges `(u.transaction_index, v.transaction_index)`.  `take_roots` removes the
current roots together with their incident edges, as `StableDag::remove_node`
does. -/

/-- The modified `(address, slot_index)` pairs of one transaction
(source: `transaction_dag.rs` lines 44-50, the `slot_conflicts` sets). -/
def slotConflictsOf (tx : TransactionMined) : List (Address × SlotIndex) :=
  tx.execution.changes.flatMap fun p =>
    p.2.slots.filterMap fun q => if q.2.is_modified then some (p.1, q.1) else none

/-- The addresses whose balance one transaction modifies
(source: `transaction_dag.rs` lines 51-53, the `balance_conflicts` sets). -/
def balanceConflictsOf (tx : TransactionMined) : List Address :=
  tx.execution.changes.filterMap fun p =>
    if p.2.balance.is_modified then some p.1 else none

/-- Two transactions conflict when their modified-slot sets or their
modified-balance address sets intersect (source: `transaction_dag.rs` lines
59-75, the `is_disjoint` tests). -/
def conflicting (t u : TransactionMined) : Bool :=
  ((slotConflictsOf t).any fun p => decide (p ∈ slotConflictsOf u)) ||
  ((balanceConflictsOf t).any fun a => decide (a ∈ balanceConflictsOf u))

/-- The conflict relation as a proposition. -/
def Conflicts (t u : TransactionMined) : Prop :=
  (∃ p, p ∈ slotConflictsOf t ∧ p ∈ slotConflictsOf u) ∨
  (∃ a, a ∈ balanceConflictsOf t ∧ a ∈ balanceConflictsOf u)

/-- Stable insertion into a list sorted by `transaction_index`. -/
def insertByIndex (t : TransactionMined) : List TransactionMined → List TransactionMined
  | [] => [t]
  | u :: rest =>
    if t.transaction_index ≤ u.transaction_index then t :: u :: rest
    else u :: insertByIndex t rest

/-- The stable sort by `transaction_index` applied to the input transactions
(source: `transaction_dag.rs` line 42, `sorted_by_key`). -/
def sortByIndex : List TransactionMined → List TransactionMined
  | [] => []
  | t :: rest => insertByIndex t (sortByIndex rest)

/-- The edges inserted by `TransactionDag::new` (source: `transaction_dag.rs`
lines 59-75): for every pair of transactions in index order, an edge from the
lower to the higher index whenever they conflict. -/
def edgesFrom : List TransactionMined → List (Nat × Nat)
  | [] => []
  | t :: rest =>
    (rest.filter fun u => conflicting t u).map (fun u => (t.transaction_index, u.transaction_index))
      ++ edgesFrom rest

structure TransactionDag where
  nodes : List TransactionMined
  edges : List (Nat × Nat)
deriving DecidableEq

/-- A node has a parent when some edge points at its index
(source: `transaction_dag.rs` lines 93-97, `dag.parents(index).walk_next`). -/
def hasParent (d : TransactionDag) (t : TransactionMined) : Bool :=
  d.edges.any fun e => e.2 == t.transaction_index

namespace TransactionDag

/-- `TransactionDag::new` (source: `transaction_dag.rs` lines 33-81). -/
def new (block_transactions : List TransactionMined) : TransactionDag :=
  let sorted := sortByIndex block_transactions
  { nodes := sorted, edges := edgesFrom sorted }

/-- `TransactionDag::take_roots` (source: `transaction_dag.rs` lines 87-112):
collect and remove all current roots; edges incident to removed nodes
disappear with them; `None` exactly when no root exists. -/
def take_roots (d : TransactionDag) : Option (List TransactionMined) × TransactionDag :=
  let roots := d.nodes.filter fun t => !hasParent d t
  if roots.isEmpty then (none, d)
  else
    let remaining := d.nodes.filter fun t => hasParent d t
    { fst := some roots
      snd :=
        { nodes := remaining
          edges := d.edges.filter fun e =>
            (remaining.any fun t => t.transaction_index == e.1) &&
            (remaining.any fun t => t.transaction_index == e.2) } }

/-- Repeated `take_roots` calls, with explicit fuel; returns the collected
waves and the final DAG. -/
def takeWavesAux : Nat → TransactionDag → List (List TransactionMined) × TransactionDag
  | 0, d => ([], d)
  | fuel + 1, d =>
    match d.take_roots with
    | (none, _) => ([], d)
    | (some w, d') =>
      let r := takeWavesAux fuel d'
      (w :: r.1, r.2)

/-- All waves produced by successive `take_roots` calls until exhaustion. -/
def waves (d : TransactionDag) : List (List TransactionMined) :=
  (takeWavesAux d.nodes.length d).1

end TransactionDag

/-! ## Helper lemmas -/

theorem lookupKV_insertKV_self [DecidableEq κ] (k : κ) (v : β) (l : List (κ × β)) :
    lookupKV k (insertKV k v l) = some v := by
  simp [lookupKV, insertKV]

theorem lookupKV_mem [DecidableEq κ] {k : κ} {v : β} {l : List (κ × β)}
    (h : lookupKV k l = some v) : (k, v) ∈ l := by
  induction l with
  | nil => simp [lookupKV] at h
  | cons e rest ih =>
    by_cases he : e.1 = k
    · simp only [lookupKV, he, if_pos rfl] at h
      cases h
      have he2 : e = (k, e.2) := by
        cases e
        simp_all
      rw [he2]
      exact List.mem_cons_self _ _
    · simp only [lookupKV, if_neg he] at h
      exact List.mem_cons_of_mem _ (ih h)

instance [DecidableEq ε] [DecidableEq α] : DecidableEq (Except ε α)
  | .ok a, .ok b =>
    if h : a = b then .isTrue (by rw [h]) else .isFalse fun hc => h (by injection hc)
  | .ok _, .error _ => .isFalse Except.noConfusion
  | .error _, .ok _ => .isFalse Except.noConfusion
  | .error a, .error b =>
    if h : a = b then .isTrue (by rw [h]) else .isFalse fun hc => h (by injection hc)

theorem flatMap_ne_nil_of_mem {l : List α} {f : α → List β} {x : α}
    (h : x ∈ l) (hf : f x ≠ []) : l.flatMap f ≠ [] :=
  fun hn => hf (List.flatMap_eq_nil_iff.mp hn x h)

/-! ### DAG lemmas -/

theorem insertByIndex_perm (t : TransactionMined) (l : List TransactionMined) :
    (insertByIndex t l).Perm (t :: l) := by
  induction l with
  | nil => exact List.Perm.refl _
  | cons u rest ih =>
    unfold insertByIndex
    by_cases h : t.transaction_index ≤ u.transaction_index
    · rw [if_pos h]
    · rw [if_neg h]
      exact (List.Perm.cons u ih).trans (List.Perm.swap t u rest)

theorem sortByIndex_perm (l : List TransactionMined) : (sortByIndex l).Perm l := by
  induction l with
  | nil => exact List.Perm.refl _
  | cons t rest ih =>
    exact (insertByIndex_perm t (sortByIndex rest)).trans (List.Perm.cons t ih)

theorem insertByIndex_pairwise {l : List TransactionMined} (t : TransactionMined)
    (h : l.Pairwise fun u v => u.transaction_index ≤ v.transaction_index) :
    (insertByIndex t l).Pairwise fun u v => u.transaction_index ≤ v.transaction_index := by
  induction l with
  | nil => exact List.pairwise_singleton _ t
  | cons u rest ih =>
    rw [List.pairwise_cons] at h
    unfold insertByIndex
    by_cases hle : t.transaction_index ≤ u.transaction_index
    · rw [if_pos hle]
      rw [List.pairwise_cons]
      refine ⟨?_, List.pairwise_cons.mpr h⟩
      intro x hx
      rcases List.mem_cons.mp hx with rfl | hx
      · exact hle
      · exact Nat.le_trans hle (h.1 x hx)
    · rw [if_neg hle]
      rw [List.pairwise_cons]
      refine ⟨?_, ih h.2⟩
      intro x hx
      have hx' := (insertByIndex_perm t rest).mem_iff.mp hx
      rcases List.mem_cons.mp hx' with rfl | hx'
      · exact Nat.le_of_lt (Nat.gt_of_not_le hle)
      · exact h.1 x hx'

theorem sortByIndex_pairwise (l : List TransactionMined) :
    (sortByIndex l).Pairwise fun u v => u.transaction_index ≤ v.transaction_index := by
  induction l with
  | nil => exact List.Pairwise.nil
  | cons t rest ih => exact insertByIndex_pairwise t ih

theorem sortByIndex_pairwise_lt {l : List TransactionMined}
    (hd : l.Pairwise fun u v => u.transaction_index ≠ v.transaction_index) :
    (sortByIndex l).Pairwise fun u v => u.transaction_index < v.transaction_index := by
  have hd' : (sortByIndex l).Pairwise fun u v => u.transaction_index ≠ v.transaction_index :=
    ((sortByIndex_perm l).pairwise_iff fun h => h.symm).mpr hd
  exact ((sortByIndex_pairwise l).and hd').imp fun h => Nat.lt_of_le_of_ne h.1 h.2

theorem conflicting_iff {t u : TransactionMined} : conflicting t u = true ↔ Conflicts t u := by
  unfold conflicting Conflicts
  simp [List.any_eq_true]

theorem Conflicts.symm {t u : TransactionMined} (h : Conflicts t u) : Conflicts u t := by
  rcases h with ⟨p, h1, h2⟩ | ⟨a, h1, h2⟩
  · exact Or.inl ⟨p, h2, h1⟩
  · exact Or.inr ⟨a, h2, h1⟩

theorem mem_edgesFrom {a b : Nat} :
    ∀ {s : List TransactionMined},
      (s.Pairwise fun u v => u.transaction_index < v.transaction_index) →
      ((a, b) ∈ edgesFrom s ↔ ∃ u ∈ s, ∃ v ∈ s, u.transaction_index = a ∧
        v.transaction_index = b ∧ a < b ∧ Conflicts u v) := by
  intro s
  induction s with
  | nil =>
    intro _
    simp [edgesFrom]
  | cons t rest ih =>
    intro hs
    rw [List.pairwise_cons] at hs
    obtain ⟨hhead, htail⟩ := hs
    unfold edgesFrom
    rw [List.mem_append]
    constructor
    · intro h
      rcases h with h | h
      · rw [List.mem_map] at h
        obtain ⟨v, hv, heq⟩ := h
        rw [List.mem_filter] at hv
        rw [Prod.mk.injEq] at heq
        obtain ⟨h1, h2⟩ := heq
        subst h1
        subst h2
        exact ⟨t, List.mem_cons_self t rest, v, List.mem_cons_of_mem t hv.1, rfl, rfl,
          hhead v hv.1, conflicting_iff.mp hv.2⟩
      · obtain ⟨u, hu, v, hv, h1, h2, h3, h4⟩ := (ih htail).mp h
        exact ⟨u, List.mem_cons_of_mem t hu, v, List.mem_cons_of_mem t hv, h1, h2, h3, h4⟩
    · intro h
      obtain ⟨u, hu, v, hv, h1, h2, h3, h4⟩ := h
      rcases List.mem_cons.mp hu with hut | hur
      · rcases List.mem_cons.mp hv with hvt | hvr
        · exfalso
          rw [← h1, ← h2, hut, hvt] at h3
          exact Nat.lt_irrefl _ h3
        · left
          rw [List.mem_map]
          refine ⟨v, ?_, ?_⟩
          · rw [List.mem_filter]
            refine ⟨hvr, conflicting_iff.mpr ?_⟩
            rw [← hut]
            exact h4
          · rw [Prod.mk.injEq]
            refine ⟨?_, h2⟩
            rw [← h1, hut]
      · rcases List.mem_cons.mp hv with hvt | hvr
        · exfalso
          have hlt := hhead u hur
          rw [← h1, ← h2, hvt] at h3
          exact Nat.lt_asymm hlt h3
        · right
          exact (ih htail).mpr ⟨u, hur, v, hvr, h1, h2, h3, h4⟩

/-- The invariant preserved along `take_roots` calls: nodes strictly sorted by
index, every edge pointing from a lower to a higher index with both endpoints
alive, and an edge present for every conflicting live pair. -/
structure DagInv (d : TransactionDag) : Prop where
  sorted : d.nodes.Pairwise fun u v => u.transaction_index < v.transaction_index
  edges_lt : ∀ e ∈ d.edges, e.1 < e.2
  edges_src : ∀ e ∈ d.edges, ∃ u ∈ d.nodes, u.transaction_index = e.1
  edges_dst : ∀ e ∈ d.edges, ∃ v ∈ d.nodes, v.transaction_index = e.2
  complete : ∀ u ∈ d.nodes, ∀ v ∈ d.nodes,
    u.transaction_index < v.transaction_index → Conflicts u v →
    (u.transaction_index, v.transaction_index) ∈ d.edges

theorem dagInv_new {txs : List TransactionMined}
    (hd : txs.Pairwise fun u v => u.transaction_index ≠ v.transaction_index) :
    DagInv (TransactionDag.new txs) := by
  have hs := sortByIndex_pairwise_lt hd
  refine ⟨hs, ?_, ?_, ?_, ?_⟩
  · intro e he
    obtain ⟨a, b⟩ := e
    obtain ⟨u, hu, v, hv, h1, h2, h3, h4⟩ := (mem_edgesFrom hs).mp he
    exact h3
  · intro e he
    obtain ⟨a, b⟩ := e
    obtain ⟨u, hu, v, hv, h1, h2, h3, h4⟩ := (mem_edgesFrom hs).mp he
    exact ⟨u, hu, h1⟩
  · intro e he
    obtain ⟨a, b⟩ := e
    obtain ⟨u, hu, v, hv, h1, h2, h3, h4⟩ := (mem_edgesFrom hs).mp he
    exact ⟨v, hv, h2⟩
  · intro u hu v hv hlt hc
    exact (mem_edgesFrom hs).mpr ⟨u, hu, v, hv, rfl, rfl, hlt, hc⟩

theorem take_roots_none {d x : TransactionDag}
    (h : d.take_roots = (none, x)) :
    d.nodes.filter (fun t => !hasParent d t) = [] ∧ x = d := by
  simp only [TransactionDag.take_roots] at h
  by_cases hr : (d.nodes.filter fun t => !hasParent d t).isEmpty = true
  · rw [if_pos hr] at h
    injection h with h1 h2
    exact ⟨List.isEmpty_iff.mp hr, h2.symm⟩
  · rw [if_neg hr] at h
    injection h with h1 _
    exact absurd h1 (by simp)

theorem take_roots_some {d d' : TransactionDag} {w : List TransactionMined}
    (h : d.take_roots = (some w, d')) :
    w = d.nodes.filter (fun t => !hasParent d t) ∧ w ≠ [] ∧
    d'.nodes = d.nodes.filter (fun t => hasParent d t) ∧
    d'.edges = d.edges.filter fun e =>
      ((d.nodes.filter fun t => hasParent d t).any fun t => t.transaction_index == e.1) &&
      ((d.nodes.filter fun t => hasParent d t).any fun t => t.transaction_index == e.2) := by
  simp only [TransactionDag.take_roots] at h
  by_cases hr : (d.nodes.filter fun t => !hasParent d t).isEmpty = true
  · rw [if_pos hr] at h
    injection h with h1 _
    exact absurd h1 (by simp)
  · rw [if_neg hr] at h
    injection h with h1 h2
    injection h1 with h1
    refine ⟨h1.symm, ?_, by rw [← h2], by rw [← h2]⟩
    intro hwnil
    rw [← h1] at hwnil
    rw [hwnil] at hr
    exact hr rfl

theorem take_roots_perm {d d' : TransactionDag} {w : List TransactionMined}
    (h : d.take_roots = (some w, d')) : (w ++ d'.nodes).Perm d.nodes := by
  obtain ⟨hw, _, hn, _⟩ := take_roots_some h
  rw [hw, hn]
  have hp := List.filter_append_perm (fun t => !hasParent d t) d.nodes
  simp only [Bool.not_not] at hp
  exact hp

theorem take_roots_length {d d' : TransactionDag} {w : List TransactionMined}
    (h : d.take_roots = (some w, d')) : d'.nodes.length < d.nodes.length := by
  have hlen := (take_roots_perm h).length_eq
  rw [List.length_append] at hlen
  obtain ⟨_, hne, _, _⟩ := take_roots_some h
  have hpos : 0 < w.length := List.length_pos.mpr hne
  omega

theorem dagInv_step {d d' : TransactionDag} {w : List TransactionMined}
    (hi : DagInv d) (h : d.take_roots = (some w, d')) : DagInv d' := by
  obtain ⟨hw, hne, hn, he⟩ := take_roots_some h
  refine ⟨?_, ?_, ?_, ?_, ?_⟩
  · rw [hn]
    exact List.Pairwise.sublist (List.filter_sublist _) hi.sorted
  · intro e he'
    rw [he] at he'
    exact hi.edges_lt e (List.mem_filter.mp he').1
  · intro e he'
    rw [he] at he'
    rw [List.mem_filter, Bool.and_eq_true] at he'
    obtain ⟨hmem, h1, _⟩ := he'
    rw [List.any_eq_true] at h1
    obtain ⟨t, ht, hteq⟩ := h1
    refine ⟨t, ?_, eq_of_beq hteq⟩
    rw [hn]
    exact ht
  · intro e he'
    rw [he] at he'
    rw [List.mem_filter, Bool.and_eq_true] at he'
    obtain ⟨hmem, _, h2⟩ := he'
    rw [List.any_eq_true] at h2
    obtain ⟨t, ht, hteq⟩ := h2
    refine ⟨t, ?_, eq_of_beq hteq⟩
    rw [hn]
    exact ht
  · intro u hu v hv hlt hc
    rw [hn] at hu hv
    have hedge := hi.complete u (List.mem_filter.mp hu).1 v (List.mem_filter.mp hv).1 hlt hc
    rw [he, List.mem_filter]
    refine ⟨hedge, ?_⟩
    rw [Bool.and_eq_true, List.any_eq_true, List.any_eq_true]
    exact ⟨⟨u, hu, by simp⟩, ⟨v, hv, by simp⟩⟩

theorem roots_nonempty {d : TransactionDag} (hi : DagInv d) (hne : d.nodes ≠ []) :
    d.nodes.filter (fun t => !hasParent d t) ≠ [] := by
  cases hn : d.nodes with
  | nil => exact absurd hn hne
  | cons t rest =>
    have hpt : hasParent d t = false := by
      by_contra hb
      rw [Bool.not_eq_false] at hb
      unfold hasParent at hb
      rw [List.any_eq_true] at hb
      obtain ⟨e, hemem, heq⟩ := hb
      have hlt := hi.edges_lt e hemem
      obtain ⟨u, hu, hue⟩ := hi.edges_src e hemem
      have heq2 : e.2 = t.transaction_index := eq_of_beq heq
      rw [hn] at hu
      rcases List.mem_cons.mp hu with rfl | hu
      · rw [heq2, hue] at hlt
        exact Nat.lt_irrefl _ hlt
      · have hs := hi.sorted
        rw [hn, List.pairwise_cons] at hs
        have htu := hs.1 u hu
        rw [heq2, ← hue] at hlt
        exact Nat.lt_asymm htu hlt
    intro hempty
    have hmem : t ∈ (t :: rest).filter fun t => !hasParent d t := by
      rw [List.mem_filter]
      exact ⟨List.mem_cons_self t rest, by rw [hpt]; rfl⟩
    rw [hempty] at hmem
    exact absurd hmem (List.not_mem_nil t)

theorem take_roots_fst_none_of_empty {d : TransactionDag} (h : d.nodes = []) :
    (d.take_roots).1 = none := by
  simp [TransactionDag.take_roots, h]

theorem takeWavesAux_spec :
    ∀ (fuel : Nat) (d : TransactionDag), DagInv d → d.nodes.length ≤ fuel →
      ((TransactionDag.takeWavesAux fuel d).1.flatten).Perm d.nodes ∧
      (TransactionDag.takeWavesAux fuel d).2.nodes = [] ∧
      (TransactionDag.takeWavesAux fuel d).1.length ≤ d.nodes.length ∧
      (∀ w ∈ (TransactionDag.takeWavesAux fuel d).1, w ≠ []) ∧
      (∀ w ∈ (TransactionDag.takeWavesAux fuel d).1, ∀ u ∈ w, ∀ v ∈ w,
        u ≠ v → ¬ Conflicts u v) := by
  intro fuel
  induction fuel with
  | zero =>
    intro d hi hlen
    have hnil : d.nodes = [] := List.length_eq_zero.mp (Nat.le_zero.mp hlen)
    simp [TransactionDag.takeWavesAux, hnil]
  | succ fuel ih =>
    intro d hi hlen
    cases htr : d.take_roots with
    | mk o d2 =>
      cases o with
      | none =>
        obtain ⟨hroots, hd2⟩ := take_roots_none htr
        have hnil : d.nodes = [] := by
          by_contra hne
          exact roots_nonempty hi hne hroots
        unfold TransactionDag.takeWavesAux
        rw [htr]
        simp [hnil]
      | some w =>
        obtain ⟨hw, hwne, hn, he⟩ := take_roots_some htr
        have hi2 := dagInv_step hi htr
        have hlt := take_roots_length htr
        have hperm := take_roots_perm htr
        have ih2 := ih d2 hi2 (by omega)
        unfold TransactionDag.takeWavesAux
        rw [htr]
        refine ⟨?_, ih2.2.1, ?_, ?_, ?_⟩
        · rw [List.flatten_cons]
          exact (List.Perm.append_left w ih2.1).trans hperm
        · have hlen2 := ih2.2.2.1
          simp only [List.length_cons]
          omega
        · intro w2 hw2
          rcases List.mem_cons.mp hw2 with rfl | hw2
          · exact hwne
          · exact ih2.2.2.2.1 w2 hw2
        · intro w2 hw2 u hu v hv hune hconf
          rcases List.mem_cons.mp hw2 with rfl | hw2
          · rw [hw] at hu hv
            have hu2 := List.mem_filter.mp hu
            have hv2 := List.mem_filter.mp hv
            have hnd : d.nodes.Pairwise fun a b : TransactionMined =>
                a.transaction_index ≠ b.transaction_index :=
              hi.sorted.imp fun hab => Nat.ne_of_lt hab
            have hsym : Symmetric fun a b : TransactionMined =>
                a.transaction_index ≠ b.transaction_index := fun a b hab => hab.symm
            have hne2 : u.transaction_index ≠ v.transaction_index :=
              hnd.forall hsym hu2.1 hv2.1 hune
            rcases Nat.lt_or_ge u.transaction_index v.transaction_index with hlt2 | hge
            · have hedge := hi.complete u hu2.1 v hv2.1 hlt2 hconf
              have hpar : hasParent d v = true := by
                unfold hasParent
                rw [List.any_eq_true]
                exact ⟨(u.transaction_index, v.transaction_index), hedge, by simp⟩
              rw [hpar] at hv2
              simp at hv2
            · have hlt2 : v.transaction_index < u.transaction_index :=
                Nat.lt_of_le_of_ne hge hne2.symm
              have hedge := hi.complete v hv2.1 u hu2.1 hlt2 hconf.symm
              have hpar : hasParent d u = true := by
                unfold hasParent
                rw [List.any_eq_true]
                exact ⟨(v.transaction_index, u.transaction_index), hedge, by simp⟩
              rw [hpar] at hu2
              simp at hu2
          · exact ih2.2.2.2.2 w2 hw2 u hu v hv hune hconf

/-- A block header with inert field values, used for concrete test blocks. -/
def dummyHeader (n : BlockNumber) : BlockHeader where
  number := n
  hash := [n]
  transactions_root := []
  gas_used := 0
  gas_limit := 0
  bloom := []
  timestamp := 0
  parent_hash := []
  author := 0
  extra_data := []
  miner := 0
  difficulty := 0
  receipts_root := []
  uncle_hash := []
  size := 0
  state_root := []
  total_difficulty := 0
  nonce := []

/-! ## Claim theorems -/

/-- **C5.** For every block number `N > 0` and all timestamps, the header minted
by `BlockHeader::new(N, t)` has `parent_hash` equal to `BlockHeader::new(N-1, t').hash`;
at `N = 0` the parent hash is the all-zero hash; and the minted `hash` is the
keccak-256 of the block number's 8-byte big-endian encoding. -/
theorem c5_block_header_hash_chain (N : BlockNumber) (t t' : UnixTime) (h : 0 < N) :
    (BlockHeader.new N t).parent_hash = (BlockHeader.new (N - 1) t').hash ∧
    (BlockHeader.new 0 t).parent_hash = Hash.zero ∧
    (BlockHeader.new N t).hash = keccak256 (BlockNumber.beBytes N) := by
  refine ⟨?_, ?_, rfl⟩
  · simp [BlockHeader.new, BlockNumber.prev, Nat.pos_iff_ne_zero.mp h, BlockNumber.hashOf]
  · simp [BlockHeader.new, BlockNumber.prev]

/-- Witness for C5 at `N = 1`. -/
theorem c5_witness :
    0 < 1 ∧
    ((BlockHeader.new 1 2).parent_hash = (BlockHeader.new 0 3).hash ∧
     (BlockHeader.new 0 2).parent_hash = Hash.zero ∧
     (BlockHeader.new 1 2).hash = keccak256 (BlockNumber.beBytes 1)) :=
  ⟨Nat.one_pos, c5_block_header_hash_chain 1 2 3 Nat.one_pos⟩

/-- **C6.** `BlockHeader::new(0, 1234567890)` yields the pinned genesis hash
`0x011b4d03…7bce` (keccak-256 of eight zero bytes) and the all-zero parent hash. -/
theorem c6_genesis_header :
    (BlockHeader.new 0 1234567890).hash =
      [0x01, 0x1b, 0x4d, 0x03, 0xdd, 0x8c, 0x01, 0xf1, 0x04, 0x91, 0x43, 0xcf, 0x9c, 0x4c, 0x81, 0x7e,
       0x4b, 0x16, 0x7f, 0x1d, 0x1b, 0x83, 0xe5, 0xc6, 0xf0, 0xf1, 0x0d, 0x89, 0xba, 0x1e, 0x7b, 0xce] ∧
    (BlockHeader.new 0 1234567890).parent_hash = Hash.zero := by
  constructor
  · decide
  · decide

theorem foldl_preserve {σ γ α : Type _} {g : σ → γ} {f : σ → α → σ}
    (h : ∀ st x, g (f st x) = g st) (l : List α) : ∀ st : σ, g (l.foldl f st) = g st := by
  induction l with
  | nil => intro st; rfl
  | cons a t ih => intro st; rw [List.foldl_cons, ih, h]

theorem applySlot_blocks_by_number (a : Address) (n : BlockNumber) (st : RocksStorageState)
    (p : SlotIndex × ExecutionValueChange Slot) :
    (applySlot a n st p).blocks_by_number = st.blocks_by_number := by
  cases hp : p.2.take <;> simp [applySlot, hp]

theorem applySlot_blocks_by_hash (a : Address) (n : BlockNumber) (st : RocksStorageState)
    (p : SlotIndex × ExecutionValueChange Slot) :
    (applySlot a n st p).blocks_by_hash = st.blocks_by_hash := by
  cases hp : p.2.take <;> simp [applySlot, hp]

theorem applyChange_blocks_by_number (st : RocksStorageState) (n : BlockNumber)
    (ch : ExecutionAccountChanges) :
    (applyChange st n ch).blocks_by_number = st.blocks_by_number := by
  unfold applyChange
  exact (foldl_preserve (applySlot_blocks_by_number ch.address n) ch.slots _).trans rfl

theorem applyChange_blocks_by_hash (st : RocksStorageState) (n : BlockNumber)
    (ch : ExecutionAccountChanges) :
    (applyChange st n ch).blocks_by_hash = st.blocks_by_hash := by
  unfold applyChange
  exact (foldl_preserve (applySlot_blocks_by_hash ch.address n) ch.slots _).trans rfl

/-- A storage whose latest-slots projection holds `(7, 0) ↦ 5` while address 7
is absent from the latest-accounts projection. -/
def cex1State : RocksPermanentStorage where
  state := { account_slots := [((7, 0), 5)] }
  block_number := 0

/-- A block with a single transaction whose change carries the original slot
value 3 for slot 0 of address 7 (differing from the stored latest value 5). -/
def cex1Block : Block where
  header := dummyHeader 1
  transactions :=
    [{ input := { hash := 1 }
       execution := { changes := [(7,
         { address := 7
           slots := [(0, { original := some { index := 0, value := 3 },
                           modified := some { index := 0, value := 9 } })] })] }
       logs := []
       transaction_index := 0
       block_number := 1
       block_hash := [] }]

/-- **C1 (counterexample).** The claim demands a `Conflict` error whenever some
change carries an original slot value differing from the stored latest slot
value.  In `cex1State` the latest slot value of `(7, 0)` is 5 and the block's
change carries original 3, yet `save_block` returns `Ok` (and mutates state),
because `check_conflicts` skips every check when the change's address is
missing from the latest-accounts projection. -/
theorem c1_counterexample :
    lookupKV (7, 0) cex1State.state.account_slots = some 5 ∧
    (∃ change ∈ cex1Block.compact_account_changes, ∃ p ∈ change.slots,
      p.2.original = some { index := 0, value := 3 }) ∧
    (RocksPermanentStorage.save_block cex1State cex1Block).1 = .ok () := by
  refine ⟨by decide, by decide, by decide⟩

/-- **C1 (amended).** Whenever some compacted account change of the block has
its address present in the latest-accounts projection and carries an original
nonce, original balance, or (for a slot present in the latest-slots
projection) original slot value differing from the stored latest value,
`save_block` returns a `Conflict` error; and whenever `save_block` returns an
error the storage (all projections, histories, indexes and the block-number
counter) is returned unchanged. -/
theorem c1_save_block_conflict (s : RocksPermanentStorage) (b : Block)
    (h : ∃ change ∈ b.compact_account_changes, ∃ acc,
      lookupKV change.address s.state.accounts = some acc ∧
      ((change.nonce.original.isSome ∧ change.nonce.original ≠ some acc.nonce) ∨
       (change.balance.original.isSome ∧ change.balance.original ≠ some acc.balance) ∨
       (∃ p ∈ change.slots, ∃ v, lookupKV (change.address, p.1) s.state.account_slots = some v ∧
         p.2.original.isSome ∧ p.2.original.map Slot.value ≠ some v))) :
    (∃ cs, cs ≠ [] ∧ s.save_block b = (.error (.conflict cs), s)) ∧
    ∀ b' e, (s.save_block b').1 = .error e → (s.save_block b').2 = s := by
  constructor
  · obtain ⟨change, hmem, acc, hacc, hcase⟩ := h
    have hch : conflictsOfChange s.state change ≠ [] := by
      unfold conflictsOfChange
      rw [hacc]
      intro heq
      simp only [List.append_eq_nil] at heq
      obtain ⟨⟨hn, hb⟩, hs⟩ := heq
      rcases hcase with ⟨hsome, hne⟩ | ⟨hsome, hne⟩ | ⟨p, hp, v, hv, hsome, hne⟩
      · obtain ⟨x, hx⟩ := Option.isSome_iff_exists.mp hsome
        rw [hx] at hne
        have hxne : x ≠ acc.nonce := fun hc => hne (by rw [hc])
        simp [ExecutionValueChange.take_original_ref, hx, hxne] at hn
      · obtain ⟨x, hx⟩ := Option.isSome_iff_exists.mp hsome
        rw [hx] at hne
        have hxne : x ≠ acc.balance := fun hc => hne (by rw [hc])
        simp [ExecutionValueChange.take_original_ref, hx, hxne] at hb
      · obtain ⟨os, hos⟩ := Option.isSome_iff_exists.mp hsome
        rw [hos] at hne
        have hone : os.value ≠ v := by
          intro hc
          exact hne (by simp [Option.map, hc])
        have := List.flatMap_eq_nil_iff.mp hs p hp
        rw [hv] at this
        simp [ExecutionValueChange.take_original_ref, hos, hone] at this
    have hall : check_conflicts s.state b.compact_account_changes ≠ [] :=
      flatMap_ne_nil_of_mem hmem hch
    refine ⟨check_conflicts s.state b.compact_account_changes, hall, ?_⟩
    unfold RocksPermanentStorage.save_block
    rw [if_neg hall]
  · intro b' e hh
    by_cases hc : check_conflicts s.state b'.compact_account_changes = []
    · exfalso
      unfold RocksPermanentStorage.save_block at hh
      rw [if_pos hc] at hh
      simp at hh
    · unfold RocksPermanentStorage.save_block
      rw [if_neg hc]

/-- The latest-accounts projection holding address 7 with nonce 1. -/
def w1State : RocksPermanentStorage where
  state := { accounts := [(7, { balance := 0, nonce := 1 })] }
  block_number := 0

def w1Change : ExecutionAccountChanges where
  address := 7
  nonce := { original := some 2, modified := some 3 }

/-- A block whose only change claims original nonce 2 for address 7. -/
def w1Block : Block where
  header := dummyHeader 1
  transactions :=
    [{ input := { hash := 1 }
       execution := { changes := [(7, w1Change)] }
       logs := []
       transaction_index := 0
       block_number := 1
       block_hash := [] }]

/-- Witness for C1: address 7 is stored with nonce 1, the change carries
original nonce 2, and `save_block` indeed fails with a conflict, leaving the
storage unchanged. -/
theorem c1_witness :
    (∃ change ∈ w1Block.compact_account_changes, ∃ acc,
      lookupKV change.address w1State.state.accounts = some acc ∧
      ((change.nonce.original.isSome ∧ change.nonce.original ≠ some acc.nonce) ∨
       (change.balance.original.isSome ∧ change.balance.original ≠ some acc.balance) ∨
       (∃ p ∈ change.slots, ∃ v, lookupKV (change.address, p.1) w1State.state.account_slots = some v ∧
         p.2.original.isSome ∧ p.2.original.map Slot.value ≠ some v))) ∧
    ((∃ cs, cs ≠ [] ∧ w1State.save_block w1Block = (.error (.conflict cs), w1State)) ∧
     ∀ b' e, (w1State.save_block b').1 = .error e → (w1State.save_block b').2 = w1State) :=
  have h : ∃ change ∈ w1Block.compact_account_changes, ∃ acc,
      lookupKV change.address w1State.state.accounts = some acc ∧
      ((change.nonce.original.isSome ∧ change.nonce.original ≠ some acc.nonce) ∨
       (change.balance.original.isSome ∧ change.balance.original ≠ some acc.balance) ∨
       (∃ p ∈ change.slots, ∃ v, lookupKV (change.address, p.1) w1State.state.account_slots = some v ∧
         p.2.original.isSome ∧ p.2.original.map Slot.value ≠ some v)) :=
    ⟨w1Change, by decide, { balance := 0, nonce := 1 }, by decide,
      Or.inl ⟨by decide, by decide⟩⟩
  ⟨h, c1_save_block_conflict w1State w1Block h⟩

/-- **C4 (counterexample).** The claim says `set_mined_block_number(n)` fails
when `n` is below the current mined block number.  With the counter at 5 and
`n = 3`, the embedded backend returns `Ok` and stores 3, and the SQL backend
returns `Ok` without touching anything: the call never fails. -/
theorem c4_counterexample :
    (RocksPermanentStorage.set_mined_block_number { state := {}, block_number := 5 } 3).1 = .ok () ∧
    (RocksPermanentStorage.set_mined_block_number { state := {}, block_number := 5 } 3).2.block_number = 3 ∧
    (PostgresPermanentStorage.set_mined_block_number {} 3).1 = .ok () :=
  ⟨rfl, rfl, rfl⟩

/-- **C4 (amended).** `set_mined_block_number(n)` always succeeds: the embedded
backend stores `n` unconditionally (also when `n` is below the current value)
and repeating the call leaves the state unchanged; the SQL backend is a no-op
that returns `Ok`. -/
theorem c4_set_mined_block_number (s : RocksPermanentStorage) (st : RocksStorageState)
    (n : BlockNumber) :
    (s.set_mined_block_number n).1 = .ok () ∧
    (s.set_mined_block_number n).2.block_number = n ∧
    ((s.set_mined_block_number n).2.set_mined_block_number n).2 = (s.set_mined_block_number n).2 ∧
    PostgresPermanentStorage.set_mined_block_number st n = (.ok (), st) :=
  ⟨rfl, rfl, rfl, rfl⟩

theorem filter_idem (p : α → Bool) (l : List α) : (l.filter p).filter p = l.filter p := by
  rw [List.filter_filter]
  simp only [Bool.and_self]

theorem latestAccountAt_ne_none_aux (n : BlockNumber) (a : Address)
    (hist : List ((Address × BlockNumber) × AccountInfo)) (h : ∀ e ∈ hist, e.1.1 ≠ a) :
    ∀ acc, hist.foldl
      (fun best e =>
        if e.1.1 = a ∧ e.1.2 ≤ n then
          match best with
          | none => some (e.1.2, e.2)
          | some b => if b.1 < e.1.2 then some (e.1.2, e.2) else best
        else best)
      acc = acc := by
  induction hist with
  | nil => intro acc; rfl
  | cons e t ih =>
    intro acc
    rw [List.foldl_cons, if_neg fun hc => h e (List.mem_cons_self e t) hc.1]
    exact ih (fun x hx => h x (List.mem_cons_of_mem e hx)) acc

theorem latestAccountAt_eq_none {n : BlockNumber} {a : Address}
    {hist : List ((Address × BlockNumber) × AccountInfo)} (h : ∀ e ∈ hist, e.1.1 ≠ a) :
    latestAccountAt hist n a = none :=
  latestAccountAt_ne_none_aux n a hist h none

theorem latestSlotAt_ne_none_aux (n : BlockNumber) (key : SlotKey)
    (hist : List ((SlotKey × BlockNumber) × Nat)) (h : ∀ e ∈ hist, e.1.1 ≠ key) :
    ∀ acc, hist.foldl
      (fun best e =>
        if e.1.1 = key ∧ e.1.2 ≤ n then
          match best with
          | none => some (e.1.2, e.2)
          | some b => if b.1 < e.1.2 then some (e.1.2, e.2) else best
        else best)
      acc = acc := by
  induction hist with
  | nil => intro acc; rfl
  | cons e t ih =>
    intro acc
    rw [List.foldl_cons, if_neg fun hc => h e (List.mem_cons_self e t) hc.1]
    exact ih (fun x hx => h x (List.mem_cons_of_mem e hx)) acc

theorem latestSlotAt_eq_none {n : BlockNumber} {key : SlotKey}
    {hist : List ((SlotKey × BlockNumber) × Nat)} (h : ∀ e ∈ hist, e.1.1 ≠ key) :
    latestSlotAt hist n key = none :=
  latestSlotAt_ne_none_aux n key hist h none

theorem accounts_rollback_idem (ah : List ((Address × BlockNumber) × AccountInfo))
    (n : BlockNumber) (e : Address × AccountInfo) :
    ((latestAccountAt ah n e.1).map fun p => (e.1, p.2)).bind
      (fun e2 => (latestAccountAt ah n e2.1).map fun p => (e2.1, p.2)) =
    (latestAccountAt ah n e.1).map fun p => (e.1, p.2) := by
  cases hl : latestAccountAt ah n e.1 <;> simp [hl]

theorem slots_rollback_idem (sh : List ((SlotKey × BlockNumber) × Nat))
    (n : BlockNumber) (e : SlotKey × Nat) :
    ((latestSlotAt sh n e.1).map fun p => (e.1, p.2)).bind
      (fun e2 => (latestSlotAt sh n e2.1).map fun p => (e2.1, p.2)) =
    (latestSlotAt sh n e.1).map fun p => (e.1, p.2) := by
  cases hl : latestSlotAt sh n e.1 <;> simp [hl]

/-- **C8.** `reset_at(n)` is idempotent; afterwards the mined block number is
at most `n`, and every point-in-time read at `Past(k)` (for `k > n`) of an
account or slot whose history was only written after block `n` returns
`None`. -/
theorem c8_reset_at (s : RocksPermanentStorage) (n : BlockNumber) :
    (s.reset_at n).reset_at n = s.reset_at n ∧
    (s.reset_at n).read_mined_block_number ≤ n ∧
    (∀ a k, n < k →
      (∀ e ∈ s.state.accounts_history, e.1.1 = a → n < e.1.2) →
      (s.reset_at n).maybe_read_account a (.Past k) = none) ∧
    (∀ a i k, n < k →
      (∀ e ∈ s.state.account_slots_history, e.1.1 = (a, i) → n < e.1.2) →
      (s.reset_at n).maybe_read_slot a i (.Past k) = none) := by
  refine ⟨?_, ?_, ?_, ?_⟩
  · unfold RocksPermanentStorage.reset_at
    simp only [RocksStorageState.reset_at, filter_idem, List.filterMap_filterMap]
    have ha := funext (accounts_rollback_idem
      (s.state.accounts_history.filter fun e => e.1.2 ≤ n) n)
    have hs := funext (slots_rollback_idem
      (s.state.account_slots_history.filter fun e => e.1.2 ≤ n) n)
    rw [RocksPermanentStorage.mk.injEq, RocksStorageState.mk.injEq]
    refine ⟨⟨?_, rfl, ?_, rfl, rfl, rfl, rfl, rfl⟩, ?_⟩
    · exact congrFun (congrArg List.filterMap ha) _
    · exact congrFun (congrArg List.filterMap hs) _
    · split <;> simp_all
  · unfold RocksPermanentStorage.reset_at RocksPermanentStorage.read_mined_block_number
    dsimp only
    split
    · exact le_refl n
    · exact le_of_not_le (by assumption)
  · intro a k hk hw
    unfold RocksPermanentStorage.maybe_read_account RocksPermanentStorage.reset_at
    simp only [RocksStorageState.read_account, RocksStorageState.reset_at]
    rw [latestAccountAt_eq_none]
    · rfl
    · intro e he hea
      rw [List.mem_filter] at he
      have := hw e he.1 hea
      have hle : e.1.2 ≤ n := by simpa using he.2
      exact absurd (Nat.lt_of_lt_of_le this hle) (Nat.lt_irrefl n)
  · intro a i k hk hw
    unfold RocksPermanentStorage.maybe_read_slot RocksPermanentStorage.reset_at
    simp only [RocksStorageState.read_slot, RocksStorageState.reset_at]
    rw [latestSlotAt_eq_none]
    · rfl
    · intro e he hea
      rw [List.mem_filter] at he
      have := hw e he.1 hea
      have hle : e.1.2 ≤ n := by simpa using he.2
      exact absurd (Nat.lt_of_lt_of_le this hle) (Nat.lt_irrefl n)

theorem length_filter_eq_iff {p : α → Bool} {l : List α} :
    (l.filter p).length = l.length ↔ ∀ a ∈ l, p a = true := by
  rw [← List.filter_eq_self (p := p)]
  constructor
  · intro h
    exact List.Sublist.eq_of_length (List.filter_sublist l) h
  · intro h
    rw [h]

/-- The latest-slots projection only holds slots of accounts present in the
latest-accounts projection (the shape every state reachable through
`save_accounts` / `save_block` has). -/
def SlotsCovered (state : RocksStorageState) : Prop :=
  ∀ e ∈ state.account_slots, (lookupKV e.1.1 state.accounts).isSome

instance (state : RocksStorageState) : Decidable (SlotsCovered state) := by
  unfold SlotsCovered
  infer_instance

theorem slotsCovered_lookup {state : RocksStorageState} (h : SlotsCovered state)
    {a : Address} {i : SlotIndex} {v : Nat} (hl : lookupKV (a, i) state.account_slots = some v) :
    (lookupKV a state.accounts).isSome :=
  h ((a, i), v) (lookupKV_mem hl)

/-- The latest-accounts projection holding address 7 with nonce 1 and a block
whose only change carries no original nonce (a fresh-account claim): the
embedded backend skips the nonce check, while the SQL backend's batched row
defaults the original nonce to 0 and the write-time predicate finds 1 ≠ 0. -/
def cex3State : RocksStorageState where
  accounts := [(7, { balance := 0, nonce := 1 })]

def cex3Block : Block where
  header := dummyHeader 1
  transactions :=
    [{ input := { hash := 1 }
       execution := { changes := [(7, { address := 7, nonce := { modified := some 2 } })] }
       logs := []
       transaction_index := 0
       block_number := 1
       block_hash := [] }]

/-- **C3 (counterexample).** The SQL backend's count-comparison does not accept
exactly the blocks the embedded backend accepts: on `cex3State`, the embedded
backend saves `cex3Block` (no original is present, so no conflict is
collected), but the SQL backend rolls back with an `Account` conflict because
the batched row's defaulted original nonce 0 differs from the stored nonce 1. -/
theorem c3_counterexample :
    (RocksPermanentStorage.save_block { state := cex3State, block_number := 0 } cex3Block).1 =
      .ok () ∧
    PostgresPermanentStorage.save_block cex3State cex3Block = .error (.conflict [.account]) := by
  constructor
  · decide
  · decide

/-- **C3 (amended).** On states whose latest slots all belong to latest
accounts, and for blocks whose compacted changes all carry original nonce and
balance values and whose slot changes carry both original and modified values,
the SQL backend's save-time count comparison accepts the block exactly when
the embedded backend's per-change comparison collects no conflict. -/
theorem c3_postgres_rocks_equivalence (state : RocksStorageState) (bn : Nat) (b : Block)
    (hwf : SlotsCovered state)
    (hch : ∀ ch ∈ b.compact_account_changes,
      ch.nonce.original.isSome ∧ ch.balance.original.isSome ∧
      ∀ p ∈ ch.slots, p.2.original.isSome ∧ p.2.modified.isSome) :
    (PostgresPermanentStorage.save_block state b = .ok () ↔
      (RocksPermanentStorage.save_block { state := state, block_number := bn } b).1 = .ok ()) := by
  have hrocks : (RocksPermanentStorage.save_block { state := state, block_number := bn } b).1 =
      .ok () ↔ check_conflicts state b.compact_account_changes = [] := by
    unfold RocksPermanentStorage.save_block
    by_cases hc : check_conflicts state b.compact_account_changes = []
    · rw [if_pos hc]
      simp [hc]
    · rw [if_neg hc]
      simp [hc]
  have hpg : PostgresPermanentStorage.save_block state b = .ok () ↔
      ((∀ row ∈ b.compact_account_changes.map accountRowOf, pgAccountRowModified state row) ∧
       (∀ row ∈ b.compact_account_changes.flatMap slotRowsOf, pgSlotRowModified state row)) := by
    unfold PostgresPermanentStorage.save_block
    by_cases h1 : ((b.compact_account_changes.map accountRowOf).filter
        (pgAccountRowModified state)).length = (b.compact_account_changes.map accountRowOf).length
    · by_cases h2 : ((b.compact_account_changes.flatMap slotRowsOf).filter
          (pgSlotRowModified state)).length = (b.compact_account_changes.flatMap slotRowsOf).length
      · rw [if_pos h1, if_pos h2]
        constructor
        · intro _
          exact ⟨length_filter_eq_iff.mp h1, length_filter_eq_iff.mp h2⟩
        · intro _
          rfl
      · rw [if_pos h1, if_neg h2]
        constructor
        · intro h
          exact absurd h (by simp)
        · intro hh
          exact absurd (length_filter_eq_iff.mpr hh.2) h2
    · rw [if_neg h1]
      constructor
      · intro h
        exact absurd h (by simp)
      · intro hh
        exact absurd (length_filter_eq_iff.mpr hh.1) h1
  rw [hrocks, hpg]
  unfold check_conflicts
  rw [List.flatMap_eq_nil_iff]
  constructor
  · -- pg accepts → no conflicts
    intro ⟨hac, hsl⟩ ch hmem
    have hhyp := hch ch hmem
    have hrow := hac (accountRowOf ch) (List.mem_map_of_mem accountRowOf hmem)
    obtain ⟨x, hx⟩ := Option.isSome_iff_exists.mp hhyp.1
    obtain ⟨y, hy⟩ := Option.isSome_iff_exists.mp hhyp.2.1
    unfold conflictsOfChange
    cases hacc : lookupKV ch.address state.accounts with
    | none => rfl
    | some acc =>
      unfold pgAccountRowModified accountRowOf at hrow
      rw [hacc] at hrow
      simp only [ExecutionValueChange.take_both, hx, hy, Option.getD_some,
        Bool.and_eq_true, beq_iff_eq] at hrow
      have hxv : x = acc.nonce := hrow.1.symm
      have hyv : y = acc.balance := hrow.2.symm
      simp only [ExecutionValueChange.take_original_ref, hx, hy, hxv, hyv, ne_eq,
        not_true_eq_false, if_false, List.nil_append]
      rw [List.flatMap_eq_nil_iff]
      intro p hp
      obtain ⟨os, hos⟩ := Option.isSome_iff_exists.mp (hhyp.2.2 p hp).1
      obtain ⟨ms, hms⟩ := Option.isSome_iff_exists.mp (hhyp.2.2 p hp).2
      cases hsv : lookupKV (ch.address, p.1) state.account_slots with
      | none => rfl
      | some v =>
        have hrowmem : SlotRow.mk ch.address p.1 ms.value os.value ∈
            b.compact_account_changes.flatMap slotRowsOf := by
          rw [List.mem_flatMap]
          refine ⟨ch, hmem, ?_⟩
          rw [slotRowsOf, List.mem_filterMap]
          exact ⟨p, hp, by simp [ExecutionValueChange.take_both, hms, hos]⟩
        have hsrow := hsl _ hrowmem
        unfold pgSlotRowModified at hsrow
        simp only [hsv, beq_iff_eq] at hsrow
        simp [ExecutionValueChange.take_original_ref, hos, hsrow]
  · -- no conflicts → pg accepts
    intro hnc
    constructor
    · intro row hrow
      rw [List.mem_map] at hrow
      obtain ⟨ch, hmem, hrow⟩ := hrow
      have hhyp := hch ch hmem
      obtain ⟨x, hx⟩ := Option.isSome_iff_exists.mp hhyp.1
      obtain ⟨y, hy⟩ := Option.isSome_iff_exists.mp hhyp.2.1
      have hc := hnc ch hmem
      unfold conflictsOfChange at hc
      cases hacc : lookupKV ch.address state.accounts with
      | none =>
        subst hrow
        unfold pgAccountRowModified accountRowOf
        rw [hacc]
      | some acc =>
        rw [hacc] at hc
        simp only [List.append_eq_nil] at hc
        obtain ⟨⟨hn, hb2⟩, _⟩ := hc
        simp only [ExecutionValueChange.take_original_ref, hx] at hn
        simp only [ExecutionValueChange.take_original_ref, hy] at hb2
        have hxe : x = acc.nonce := by
          by_contra hne
          simp [hne] at hn
        have hye : y = acc.balance := by
          by_contra hne
          simp [hne] at hb2
        subst hrow
        unfold pgAccountRowModified accountRowOf
        rw [hacc]
        simp [ExecutionValueChange.take_both, hx, hy, hxe, hye]
    · intro row hrow
      rw [List.mem_flatMap] at hrow
      obtain ⟨ch, hmem, hrow⟩ := hrow
      rw [slotRowsOf, List.mem_filterMap] at hrow
      obtain ⟨p, hp, hval⟩ := hrow
      have hhyp := hch ch hmem
      obtain ⟨os, hos⟩ := Option.isSome_iff_exists.mp (hhyp.2.2 p hp).1
      obtain ⟨ms, hms⟩ := Option.isSome_iff_exists.mp (hhyp.2.2 p hp).2
      simp only [ExecutionValueChange.take_both, hms, hos, Option.map_some,
        Option.getD_some] at hval
      injection hval with hval
      have hc := hnc ch hmem
      unfold conflictsOfChange at hc
      cases hacc : lookupKV ch.address state.accounts with
      | none =>
        subst hval
        unfold pgSlotRowModified
        cases hsv : lookupKV (ch.address, p.1) state.account_slots with
        | none => rfl
        | some v =>
          exact absurd (slotsCovered_lookup hwf hsv) (by simp [hacc])
      | some acc =>
        rw [hacc] at hc
        simp only [List.append_eq_nil] at hc
        obtain ⟨_, hsl⟩ := hc
        have hps := List.flatMap_eq_nil_iff.mp hsl p hp
        subst hval
        unfold pgSlotRowModified
        cases hsv : lookupKV (ch.address, p.1) state.account_slots with
        | none => rfl
        | some v =>
          rw [hsv] at hps
          simp only [ExecutionValueChange.take_original_ref, hos] at hps
          have : os.value = v := by
            by_contra hne
            simp [hne] at hps
          simp [this]

/-- A consistent concrete state and block: matching originals everywhere. -/
def w3State : RocksStorageState where
  accounts := [(7, { balance := 2, nonce := 1 })]
  account_slots := [((7, 0), 5)]

def w3Block : Block where
  header := dummyHeader 1
  transactions :=
    [{ input := { hash := 1 }
       execution := { changes := [(7,
         { address := 7
           nonce := { original := some 1, modified := some 2 }
           balance := { original := some 2, modified := some 3 }
           slots := [(0, { original := some { index := 0, value := 5 },
                           modified := some { index := 0, value := 9 } })] })] }
       logs := []
       transaction_index := 0
       block_number := 1
       block_hash := [] }]

/-- Witness for C3 on a consistent state and fully-originated block. -/
theorem c3_witness :
    SlotsCovered w3State ∧
    (∀ ch ∈ w3Block.compact_account_changes,
      ch.nonce.original.isSome ∧ ch.balance.original.isSome ∧
      ∀ p ∈ ch.slots, p.2.original.isSome ∧ p.2.modified.isSome) ∧
    (PostgresPermanentStorage.save_block w3State w3Block = .ok () ↔
      (RocksPermanentStorage.save_block { state := w3State, block_number := 0 } w3Block).1 =
        .ok ()) :=
  ⟨by decide, by decide, c3_postgres_rocks_equivalence w3State 0 w3Block (by decide) (by decide)⟩

/-- A storage whose only writes (account 3, slot `(3, 4)`) happened at block 2. -/
def w8State : RocksPermanentStorage where
  state :=
    { accounts := [(3, { balance := 9, nonce := 1 })]
      accounts_history := [((3, 2), { balance := 9, nonce := 1 })]
      account_slots := [((3, 4), 7)]
      account_slots_history := [(((3, 4), 2), 7)] }
  block_number := 2

/-- Witness for C8 at `n = 1`, `k = 2`. -/
theorem c8_witness :
    ((w8State.reset_at 1).reset_at 1 = w8State.reset_at 1 ∧
     (w8State.reset_at 1).read_mined_block_number ≤ 1) ∧
    (1 < 2 ∧ (∀ e ∈ w8State.state.accounts_history, e.1.1 = 3 → 1 < e.1.2)) ∧
    (w8State.reset_at 1).maybe_read_account 3 (.Past 2) = none ∧
    (w8State.reset_at 1).maybe_read_slot 3 4 (.Past 2) = none :=
  have h := c8_reset_at w8State 1
  ⟨⟨h.1, h.2.1⟩, ⟨by decide, by decide⟩,
    h.2.2.1 3 2 (by decide) (by decide),
    h.2.2.2 3 4 2 (by decide) (by decide)⟩

/-- **C9.** When `save_block(b)` succeeds, the block stored under
`blocks_by_number` — also reachable through the `blocks_by_hash` index and
returned by `read_block` — is `b` with every transaction's `execution.changes`
replaced by the empty collection, not the block exactly as saved. -/
theorem c9_read_block_strips_changes (s s' : RocksPermanentStorage) (b : Block)
    (h : s.save_block b = (.ok (), s')) :
    lookupKV b.header.number s'.state.blocks_by_number =
      some (RocksPermanentStorage.stripChanges b) ∧
    lookupKV b.header.hash s'.state.blocks_by_hash = some b.header.number ∧
    s'.state.read_block (.Number b.header.number) =
      some (RocksPermanentStorage.stripChanges b) ∧
    s'.state.read_block (.Hash b.header.hash) =
      some (RocksPermanentStorage.stripChanges b) := by
  by_cases hc : check_conflicts s.state b.compact_account_changes = []
  · have h2 : s' = (s.save_block b).2 := by rw [h]
    subst h2
    have hbn : (s.save_block b).2.state.blocks_by_number =
        insertKV b.header.number (RocksPermanentStorage.stripChanges b) s.state.blocks_by_number := by
      unfold RocksPermanentStorage.save_block
      rw [if_pos hc]
      exact (foldl_preserve
        (fun st ch => applyChange_blocks_by_number st b.header.number ch)
        b.compact_account_changes _).trans rfl
    have hbh : (s.save_block b).2.state.blocks_by_hash =
        insertKV b.header.hash b.header.number s.state.blocks_by_hash := by
      unfold RocksPermanentStorage.save_block
      rw [if_pos hc]
      exact (foldl_preserve
        (fun st ch => applyChange_blocks_by_hash st b.header.number ch)
        b.compact_account_changes _).trans rfl
    refine ⟨?_, ?_, ?_, ?_⟩
    · rw [hbn, lookupKV_insertKV_self]
    · rw [hbh, lookupKV_insertKV_self]
    · simp only [RocksStorageState.read_block]
      rw [hbn, lookupKV_insertKV_self]
    · simp only [RocksStorageState.read_block]
      rw [hbh, lookupKV_insertKV_self, Option.some_bind, hbn, lookupKV_insertKV_self]
  · exfalso
    unfold RocksPermanentStorage.save_block at h
    rw [if_neg hc] at h
    have := congrArg Prod.fst h
    simp at this

/-- A block with one transaction writing slot 0 of address 3 (non-empty
`execution.changes`, so stripping is observable). -/
def w9Block : Block where
  header := dummyHeader 1
  transactions :=
    [{ input := { hash := 11 }
       execution := { changes := [(3,
         { address := 3
           balance := { original := none, modified := some 4 }
           slots := [(0, { original := none, modified := some { index := 0, value := 9 } })] })] }
       logs := [{ log_index := 0 }]
       transaction_index := 0
       block_number := 1
       block_hash := [] }]

def w9State : RocksPermanentStorage where
  state := {}
  block_number := 0

/-- Witness for C9 at a concrete save. -/
theorem c9_witness :
    w9State.save_block w9Block = (.ok (), (w9State.save_block w9Block).2) ∧
    lookupKV w9Block.header.number (w9State.save_block w9Block).2.state.blocks_by_number =
      some (RocksPermanentStorage.stripChanges w9Block) ∧
    lookupKV w9Block.header.hash (w9State.save_block w9Block).2.state.blocks_by_hash =
      some w9Block.header.number ∧
    (w9State.save_block w9Block).2.state.read_block (.Number w9Block.header.number) =
      some (RocksPermanentStorage.stripChanges w9Block) ∧
    (w9State.save_block w9Block).2.state.read_block (.Hash w9Block.header.hash) =
      some (RocksPermanentStorage.stripChanges w9Block) :=
  have h : w9State.save_block w9Block = (.ok (), (w9State.save_block w9Block).2) := by decide
  ⟨h, c9_read_block_strips_changes w9State (w9State.save_block w9Block).2 w9Block h⟩

/-- **C2.** For transactions with distinct indices: an edge `(a, b)` exists in
the DAG iff two input transactions with indices `a < b` conflict (share a
modified `(address, slot_index)` or both modify some address's balance); the
concatenation of the successive `take_roots()` waves is a permutation of the
input; and no two distinct transactions of one wave conflict. -/
theorem c2_transaction_dag (txs : List TransactionMined)
    (hd : txs.Pairwise fun u v => u.transaction_index ≠ v.transaction_index) :
    (∀ a b : Nat, ((a, b) ∈ (TransactionDag.new txs).edges ↔
      ∃ u ∈ txs, ∃ v ∈ txs, u.transaction_index = a ∧ v.transaction_index = b ∧
        a < b ∧ Conflicts u v)) ∧
    ((TransactionDag.new txs).waves.flatten).Perm txs ∧
    (∀ w ∈ (TransactionDag.new txs).waves, ∀ u ∈ w, ∀ v ∈ w, u ≠ v → ¬ Conflicts u v) := by
  have hs := sortByIndex_pairwise_lt hd
  have hinv := dagInv_new hd
  have hperm := sortByIndex_perm txs
  have hspec := takeWavesAux_spec (TransactionDag.new txs).nodes.length
    (TransactionDag.new txs) hinv (Nat.le_refl _)
  refine ⟨?_, ?_, ?_⟩
  · intro a b
    have hEdges : (TransactionDag.new txs).edges = edgesFrom (sortByIndex txs) := rfl
    rw [hEdges, mem_edgesFrom hs]
    constructor
    · intro ⟨u, hu, v, hv, h1, h2, h3, h4⟩
      exact ⟨u, hperm.mem_iff.mp hu, v, hperm.mem_iff.mp hv, h1, h2, h3, h4⟩
    · intro ⟨u, hu, v, hv, h1, h2, h3, h4⟩
      exact ⟨u, hperm.mem_iff.mpr hu, v, hperm.mem_iff.mpr hv, h1, h2, h3, h4⟩
  · exact hspec.1.trans hperm
  · exact hspec.2.2.2.2

/-- A slot change writing slot `i` (mirrors the `create_tx` helper of the
source's DAG tests). -/
def mkSlotChange (i : Nat) : SlotIndex × ExecutionValueChange Slot :=
  (i, { modified := some { index := i, value := 0 } })

/-- A mined transaction with index `idx` whose only change modifies the given
slots of address 0. -/
def mkTx (idx : Nat) (slots : List Nat) : TransactionMined where
  input := { hash := idx }
  execution := { changes := [(0, { address := 0, slots := slots.map mkSlotChange })] }
  logs := []
  transaction_index := idx
  block_number := 0
  block_hash := Hash.zero

/-- Witness for C2 on two transactions both modifying slot 1. -/
theorem c2_witness :
    ([mkTx 0 [1], mkTx 1 [1]].Pairwise fun u v =>
      u.transaction_index ≠ v.transaction_index) ∧
    ((∀ a b : Nat, ((a, b) ∈ (TransactionDag.new [mkTx 0 [1], mkTx 1 [1]]).edges ↔
      ∃ u ∈ [mkTx 0 [1], mkTx 1 [1]], ∃ v ∈ [mkTx 0 [1], mkTx 1 [1]],
        u.transaction_index = a ∧ v.transaction_index = b ∧ a < b ∧ Conflicts u v)) ∧
     ((TransactionDag.new [mkTx 0 [1], mkTx 1 [1]]).waves.flatten).Perm
       [mkTx 0 [1], mkTx 1 [1]] ∧
     (∀ w ∈ (TransactionDag.new [mkTx 0 [1], mkTx 1 [1]]).waves, ∀ u ∈ w, ∀ v ∈ w,
       u ≠ v → ¬ Conflicts u v)) :=
  have hd : [mkTx 0 [1], mkTx 1 [1]].Pairwise fun u v =>
      u.transaction_index ≠ v.transaction_index := by
    refine List.Pairwise.cons ?_ (List.pairwise_singleton _ _)
    intro v hv
    rw [List.mem_singleton] at hv
    rw [hv]
    decide
  ⟨hd, c2_transaction_dag [mkTx 0 [1], mkTx 1 [1]] hd⟩

/-- **C10.** For distinct-index inputs the graph is acyclic (every edge goes
from a strictly lower to a strictly higher index), so `take_roots` on a
non-empty DAG yields a non-empty wave, the number of waves is at most the
number of transactions, and after the last wave the DAG is empty and the next
`take_roots` call returns `None`. -/
theorem c10_dag_acyclic_termination (txs : List TransactionMined)
    (hd : txs.Pairwise fun u v => u.transaction_index ≠ v.transaction_index) :
    (∀ e ∈ (TransactionDag.new txs).edges, e.1 < e.2) ∧
    ((TransactionDag.new txs).nodes ≠ [] →
      ∃ w d', (TransactionDag.new txs).take_roots = (some w, d') ∧ w ≠ []) ∧
    (TransactionDag.new txs).waves.length ≤ txs.length ∧
    (∀ w ∈ (TransactionDag.new txs).waves, w ≠ []) ∧
    (TransactionDag.takeWavesAux (TransactionDag.new txs).nodes.length
      (TransactionDag.new txs)).2.nodes = [] ∧
    ((TransactionDag.takeWavesAux (TransactionDag.new txs).nodes.length
      (TransactionDag.new txs)).2.take_roots).1 = none := by
  have hinv := dagInv_new hd
  have hspec := takeWavesAux_spec (TransactionDag.new txs).nodes.length
    (TransactionDag.new txs) hinv (Nat.le_refl _)
  refine ⟨hinv.edges_lt, ?_, ?_, hspec.2.2.2.1, hspec.2.1, ?_⟩
  · intro hne
    cases htr : (TransactionDag.new txs).take_roots with
    | mk o d2 =>
      cases o with
      | none => exact absurd (take_roots_none htr).1 (roots_nonempty hinv hne)
      | some w => exact ⟨w, d2, rfl, (take_roots_some htr).2.1⟩
  · have hlen := (sortByIndex_perm txs).length_eq
    have h := hspec.2.2.1
    exact hlen ▸ h
  · exact take_roots_fst_none_of_empty hspec.2.1

/-- Witness for C10 on two independent transactions. -/
theorem c10_witness :
    ([mkTx 0 [1], mkTx 1 [2]].Pairwise fun u v =>
      u.transaction_index ≠ v.transaction_index) ∧
    ((∀ e ∈ (TransactionDag.new [mkTx 0 [1], mkTx 1 [2]]).edges, e.1 < e.2) ∧
     ((TransactionDag.new [mkTx 0 [1], mkTx 1 [2]]).nodes ≠ [] →
       ∃ w d', (TransactionDag.new [mkTx 0 [1], mkTx 1 [2]]).take_roots = (some w, d') ∧
         w ≠ []) ∧
     (TransactionDag.new [mkTx 0 [1], mkTx 1 [2]]).waves.length ≤
       ([mkTx 0 [1], mkTx 1 [2]] : List TransactionMined).length ∧
     (∀ w ∈ (TransactionDag.new [mkTx 0 [1], mkTx 1 [2]]).waves, w ≠ []) ∧
     (TransactionDag.takeWavesAux (TransactionDag.new [mkTx 0 [1], mkTx 1 [2]]).nodes.length
       (TransactionDag.new [mkTx 0 [1], mkTx 1 [2]])).2.nodes = [] ∧
     ((TransactionDag.takeWavesAux (TransactionDag.new [mkTx 0 [1], mkTx 1 [2]]).nodes.length
       (TransactionDag.new [mkTx 0 [1], mkTx 1 [2]])).2.take_roots).1 = none) :=
  have hd : [mkTx 0 [1], mkTx 1 [2]].Pairwise fun u v =>
      u.transaction_index ≠ v.transaction_index := by
    refine List.Pairwise.cons ?_ (List.pairwise_singleton _ _)
    intro v hv
    rw [List.mem_singleton] at hv
    rw [hv]
    decide
  ⟨hd, c10_dag_acyclic_termination [mkTx 0 [1], mkTx 1 [2]] hd⟩

/-- The seven transactions of DAG case A, with modified slot sets
`[{1}, {2}, {1,2,3}, {3,4,5}, {4,7}, {3,8}, {8,7}]`. -/
def dagCaseA : List TransactionMined :=
  [mkTx 0 [1], mkTx 1 [2], mkTx 2 [1, 2, 3], mkTx 3 [3, 4, 5], mkTx 4 [4, 7],
   mkTx 5 [3, 8], mkTx 6 [8, 7]]

/-- **C7.** On DAG case A, successive `take_roots()` calls return exactly the
waves with index sets `{0,1}, {2}, {3}, {4,5}, {6}` (the embedding lists each
wave in ascending index order), and the next call after the last wave returns
`None`. -/
theorem c7_dag_case_a :
    ((TransactionDag.new dagCaseA).waves.map fun w =>
      w.map fun t => t.transaction_index) = [[0, 1], [2], [3], [4, 5], [6]] ∧
    ((TransactionDag.takeWavesAux (TransactionDag.new dagCaseA).nodes.length
      (TransactionDag.new dagCaseA)).2.take_roots).1 = none := by
  constructor
  · decide
  · decide

end Stratus
